import Mathlib

/-!
Verification of the `qq` logging package (file `qq.go`) against its
natural-language specification.

The Go source is shallowly embedded: each Go function that the claims
mention is translated into a Lean definition of the same name
(`formatArgs`, `colorize`, `argName`, `exprToString`, `qqCall`,
`argNames` as `inspectList`/`namingPhase`, `openLog`, and `Log` as
`qqLog`).  Go panics (slice index out of range, nil pointer
dereference, `panic(err)` in `openLog`) are modelled with
`Option`/`Except`: a `none`/`.error` result means the Go code panics at
that point and nothing further executes.
-/

set_option maxHeartbeats 1000000

namespace QQ

/-- A runtime value passed to `qq.Log`.  Only the two renderings that
`qq.go` ever takes of a value are relevant: `reprHashV` is the string
`fmt.Sprintf("%#v", v)` produces, and `reprV` is the plain `%v`
rendering that `logger.Println` applies when the value reaches it
unformatted. -/
structure GoValue where
  reprV : String
  reprHashV : String
deriving DecidableEq

/-- ANSI escape code for bold text (Go constant `bold`). -/
def bold : String := "\x1b[1m"

/-- ANSI escape code for yellow text (Go constant `yellow`). -/
def yellow : String := "\x1b[33m"

/-- ANSI escape code for cyan text (Go constant `cyan`). -/
def cyan : String := "\x1b[36m"

/-- ANSI escape code resetting all attributes (Go constant `endColor`). -/
def endColor : String := "\x1b[0m"

/-- Embedding of Go `colorize`: wrap `text` in the escape code `c` and
the reset code. -/
def colorize (text : String) (c : String) : String :=
  c ++ text ++ endColor

/-- Monadic map over a list in the `Option` monad.  A `none` for any
element makes the whole result `none`; this is how a Go panic inside a
loop body is modelled. -/
def optMapM (f : α → Option β) : List α → Option (List β)
  | [] => some []
  | a :: l => do
      let b ← f a
      let bs ← optMapM f l
      pure (b :: bs)

/-- The body of the `formatArgs` loop for index `i`: render
`values[i]` with `%#v`, colorize it cyan, and pair it with `names[i]`
(bold) when that name is non-empty.  The lookup `names.get? i`
returning `none` models the Go slice access `names[i]` panicking with
an index out of range. -/
def formatArgsBody (names : List String) (values : List GoValue) (i : Nat) :
    Option String := do
  let v ← values.get? i
  let n ← names.get? i
  let val := colorize v.reprHashV cyan
  pure (if n = "" then val else colorize n bold ++ "=" ++ val)

/-- Embedding of Go `formatArgs`: the loop `for i := 0; i < len(values)`
building one display string per runtime value.  `none` means the Go
code panics (out-of-range access to `names`). -/
def formatArgs (names : List String) (values : List GoValue) :
    Option (List String) :=
  optMapM (formatArgsBody names values) (List.range values.length)

/-- The display string `formatArgs` builds for one name/value pair. -/
def fmtEntry (n : String) (v : GoValue) : String :=
  let val := colorize v.reprHashV cyan
  if n = "" then val else colorize n bold ++ "=" ++ val

theorem optMapM_none_of_mem {f : α → Option β} {l : List α} {a : α}
    (ha : a ∈ l) (hfa : f a = none) : optMapM f l = none := by
  induction l with
  | nil => cases ha
  | cons x xs ih =>
      rcases List.mem_cons.mp ha with h | h
      · subst h
        simp [optMapM, hfa]
      · cases hfx : f x with
        | none => simp [optMapM, hfx]
        | some b => simp [optMapM, hfx, ih h]

theorem optMapM_map (f : β → Option γ) (g : α → β) (l : List α) :
    optMapM f (l.map g) = optMapM (fun a => f (g a)) l := by
  induction l with
  | nil => rfl
  | cons x xs ih => simp [optMapM, ih]

theorem formatArgs_cons (nm : String) (ns : List String)
    (v : GoValue) (vs : List GoValue) :
    formatArgs (nm :: ns) (v :: vs) =
      (formatArgsBody (nm :: ns) (v :: vs) 0).bind
        (fun b => (formatArgs ns vs).bind (fun bs => some (b :: bs))) := by
  show optMapM _ (List.range (vs.length + 1)) = _
  rw [List.range_succ_eq_map]
  simp only [optMapM, optMapM_map]
  have hbody : (fun i => formatArgsBody (nm :: ns) (v :: vs) (i + 1)) =
      formatArgsBody ns vs := by
    funext i
    simp [formatArgsBody]
  rw [hbody]
  rfl

/-- When there are at least as many names as values, `formatArgs`
completes without a panic and produces exactly the index-wise zip of
names with values. -/
theorem formatArgs_of_le (names : List String) (values : List GoValue)
    (h : values.length ≤ names.length) :
    formatArgs names values = some (List.zipWith fmtEntry names values) := by
  induction values generalizing names with
  | nil => cases names <;> rfl
  | cons v vs ih =>
      cases names with
      | nil => simp at h
      | cons nm ns =>
          rw [formatArgs_cons]
          have hle : vs.length ≤ ns.length := Nat.succ_le_succ_iff.mp (by simpa using h)
          rw [ih ns hle]
          simp [formatArgsBody, fmtEntry]

/-- When there are fewer names than values, the loop reaches an index
past the end of `names` and the Go code panics with an index out of
range: the model returns `none`. -/
theorem formatArgs_of_lt (names : List String) (values : List GoValue)
    (h : names.length < values.length) :
    formatArgs names values = none := by
  apply optMapM_none_of_mem (a := names.length)
  · exact List.mem_range.mpr h
  · simp [formatArgsBody, List.get?_eq_none.mpr (Nat.le_refl _)]

/-! ## Go AST embedding

The fragment of `go/ast` that `argNames`, `qqCall`, `argName` and
`exprToString` touch.  `ObjInfo` embeds `*ast.Object` as attached to an
identifier by the parser's resolution pass; the pointer may be nil
(`Option`).  `Expr` covers every node kind named in `argName`'s switch,
plus `selector` (needed by `qqCall`, and an instance of the switch's
default case) and `basicLit` (literals, the default case).  Call nodes
carry the line numbers of their starting and ending source positions
(`fset.Position(call.Pos()).Line` / `fset.Position(call.End()).Line`);
no other node needs position data for these claims.  `OExpr` embeds a
possibly-nil expression pointer (slice bounds), and `ExprList` an
argument slice. -/

/-- The kinds of `ast.Object` (`ast.Bad`, `ast.Pkg`, `ast.Con`,
`ast.Typ`, `ast.Var`, `ast.Fun`, `ast.Lbl`). -/
inductive ObjKind where
  | bad
  | pkg
  | con
  | typ
  | varK
  | funK
  | lbl
deriving DecidableEq

/-- Embedding of `ast.Object`: the object an identifier resolved to
(its kind and declared name).  The parser leaves `Ident.Obj` nil for
identifiers it cannot resolve within the file — predeclared
identifiers such as `true`, and names declared in other files — so the
field is used as `Option ObjInfo` below. -/
structure ObjInfo where
  kind : ObjKind
  name : String
deriving DecidableEq

mutual
/-- Embedding of the `ast.Expr` node kinds relevant to `qq.go`. -/
inductive Expr where
  | ident (name : String) (obj : Option ObjInfo)
  | basicLit (value : String)
  | binary (x : Expr) (op : String) (y : Expr)
  | call (fn : Expr) (args : ExprList) (startLine : Nat) (endLine : Nat)
  | indexE (x : Expr) (idx : Expr)
  | keyValue (key : Expr) (value : Expr)
  | paren (x : Expr)
  | sliceE (x : Expr) (low : OExpr) (high : OExpr)
  | typeAssert (x : Expr) (typ : Expr)
  | unary (op : String) (x : Expr)
  | selector (x : Expr) (sel : String)
/-- A possibly-nil expression pointer (e.g. an omitted slice bound). -/
inductive OExpr where
  | onone
  | osome (e : Expr)
/-- An argument list (`[]ast.Expr`). -/
inductive ExprList where
  | enil
  | econs (head : Expr) (tail : ExprList)
end

/-- Convert an embedded argument list to a Lean list. -/
def ExprList.toList : ExprList → List Expr
  | .enil => []
  | .econs e t => e :: t.toList

mutual
/-- Embedding of Go `exprToString`: `printer.Fprint` of a single
expression node, i.e. the normalized source text `go/printer` would
produce for it. -/
def exprToString : Expr → String
  | .ident n _ => n
  | .basicLit v => v
  | .binary x op y => exprToString x ++ " " ++ op ++ " " ++ exprToString y
  | .call fn args _ _ => exprToString fn ++ "(" ++ exprListToString args ++ ")"
  | .indexE x i => exprToString x ++ "[" ++ exprToString i ++ "]"
  | .keyValue k v => exprToString k ++ ": " ++ exprToString v
  | .paren x => "(" ++ exprToString x ++ ")"
  | .sliceE x lo hi =>
      exprToString x ++ "[" ++ oexprToString lo ++ ":" ++ oexprToString hi ++ "]"
  | .typeAssert x t => exprToString x ++ ".(" ++ exprToString t ++ ")"
  | .unary op x => op ++ exprToString x
  | .selector x s => exprToString x ++ "." ++ s
/-- Print a possibly-omitted expression (omitted prints as nothing). -/
def oexprToString : OExpr → String
  | .onone => ""
  | .osome e => exprToString e
/-- Print an argument list separated by commas. -/
def exprListToString : ExprList → String
  | .enil => ""
  | .econs e .enil => exprToString e
  | .econs e (.econs f t) => exprToString e ++ ", " ++ exprListToString (.econs f t)
end

/-- Embedding of Go `argName`.  The `*ast.Ident` case reads
`a.Obj.Kind`; when the object pointer is nil that is a nil-pointer
dereference, modelled as `none` (the Go code panics).  The eight
compound-expression kinds print the node; every other kind falls
through the switch and keeps `name`'s zero value `""`. -/
def argName (arg : Expr) : Option String :=
  match arg with
  | .ident _ obj =>
      match obj with
      | none => none
      | some o => some (if o.kind = ObjKind.varK then o.name else "")
  | .binary x op y => some (exprToString (.binary x op y))
  | .call fn args s e => some (exprToString (.call fn args s e))
  | .indexE x i => some (exprToString (.indexE x i))
  | .keyValue k v => some (exprToString (.keyValue k v))
  | .paren x => some (exprToString (.paren x))
  | .sliceE x lo hi => some (exprToString (.sliceE x lo hi))
  | .typeAssert x t => some (exprToString (.typeAssert x t))
  | .unary op x => some (exprToString (.unary op x))
  | _ => some ""

/-- Embedding of Go `qqCall`: the call's `Fun` must be a selector
expression whose receiver is an identifier whose name is `"qq"`.
Nothing else about the call — in particular not the selected function
name, and not what the identifier resolves to — is examined. -/
def qqCall (n : Expr) : Bool :=
  match n with
  | .call (.selector (.ident nm _) _) _ _ _ => nm = "qq"
  | _ => false

/-- Run `argName` along an argument list, appending each result to the
accumulated name slice; a panic (`none`) in any argument aborts the
whole traversal, as in Go. -/
def argNameList : ExprList → Option (List String)
  | .enil => some []
  | .econs a t =>
      (argName a).bind (fun n => (argNameList t).bind (fun ns => some (n :: ns)))

mutual
/-- Embedding of the `ast.Inspect` traversal inside Go `argNames` for
one subtree: depth-first, pre-order (`ast.Walk` order: a call node
first, then its `Fun`, then its arguments).  A call node whose ending
line equals `line` and which satisfies `qqCall` contributes
`argName` of each of its arguments, and the traversal still descends
into it afterwards. -/
def inspectExpr (line : Nat) : Expr → Option (List String)
  | .ident _ _ => some []
  | .basicLit _ => some []
  | .binary x _ y =>
      (inspectExpr line x).bind (fun l =>
        (inspectExpr line y).bind (fun r => some (l ++ r)))
  | .call fn args s e =>
      (if e = line && qqCall (.call fn args s e) then argNameList args
       else some []).bind (fun here =>
        (inspectExpr line fn).bind (fun sub1 =>
          (inspectList line args).bind (fun sub2 => some (here ++ sub1 ++ sub2))))
  | .indexE x i =>
      (inspectExpr line x).bind (fun l =>
        (inspectExpr line i).bind (fun r => some (l ++ r)))
  | .keyValue k v =>
      (inspectExpr line k).bind (fun l =>
        (inspectExpr line v).bind (fun r => some (l ++ r)))
  | .paren x => inspectExpr line x
  | .sliceE x lo hi =>
      (inspectExpr line x).bind (fun l =>
        (inspectOExpr line lo).bind (fun m =>
          (inspectOExpr line hi).bind (fun r => some (l ++ m ++ r))))
  | .typeAssert x t =>
      (inspectExpr line x).bind (fun l =>
        (inspectExpr line t).bind (fun r => some (l ++ r)))
  | .unary _ x => inspectExpr line x
  | .selector x _ => inspectExpr line x
/-- Traverse a possibly-nil child. -/
def inspectOExpr (line : Nat) : OExpr → Option (List String)
  | .onone => some []
  | .osome e => inspectExpr line e
/-- Traverse the trees of a forest in order, concatenating the
collected names. -/
def inspectList (line : Nat) : ExprList → Option (List String)
  | .enil => some []
  | .econs e t =>
      (inspectExpr line e).bind (fun l =>
        (inspectList line t).bind (fun r => some (l ++ r)))
end

/-- Embedding of Go `argNames`.  The parsed file is represented as the
forest of expressions appearing in it, in source order (`ast.Inspect`
reaches every expression of the file in that order); `none` in place
of a forest means `parser.ParseFile` returned an error.  The outer
`Except` is `argNames`' error result; the inner `Option` models a
panic (nil-object dereference in `argName`) escaping the traversal. -/
def argNames (parseTree : Option ExprList) (line : Nat) :
    Except Unit (Option (List String)) :=
  match parseTree with
  | none => .error ()
  | some forest => .ok (inspectList line forest)

/-! ## Characterization of the call-matcher traversal

`callNodesList file` lists every call-expression node of the file in
the depth-first pre-order that `ast.Inspect` visits them; `isMatch`
is the retention test the `argNames` visitor applies to a call node
(ending line equals the target line, and `qqCall`); the names
produced are `argName` of the retained calls' arguments,
concatenated in that traversal order. -/

mutual
/-- Every call-expression node in a subtree, in `ast.Inspect`
pre-order (a call node is listed before the calls inside its `Fun`
and its arguments). -/
def callNodes : Expr → List Expr
  | .ident _ _ => []
  | .basicLit _ => []
  | .binary x _ y => callNodes x ++ callNodes y
  | .call fn args s e => .call fn args s e :: (callNodes fn ++ callNodesList args)
  | .indexE x i => callNodes x ++ callNodes i
  | .keyValue k v => callNodes k ++ callNodes v
  | .paren x => callNodes x
  | .sliceE x lo hi => callNodes x ++ callNodesO lo ++ callNodesO hi
  | .typeAssert x t => callNodes x ++ callNodes t
  | .unary _ x => callNodes x
  | .selector x _ => callNodes x
/-- Call nodes under a possibly-nil child. -/
def callNodesO : OExpr → List Expr
  | .onone => []
  | .osome e => callNodes e
/-- Call nodes of a forest, in order. -/
def callNodesList : ExprList → List Expr
  | .enil => []
  | .econs e t => callNodes e ++ callNodesList t
end

/-- The retention test of the `argNames` visitor: the node is a call
expression whose ending source line is the target line and which
passes `qqCall`.  The call's starting line plays no part. -/
def isMatch (line : Nat) : Expr → Bool
  | .call fn args s e => e = line && qqCall (.call fn args s e)
  | _ => false

/-- The argument list of a call node (empty for any other node). -/
def callArgs : Expr → List Expr
  | .call _ args _ _ => args.toList
  | _ => []

/-- The name list the spec describes: keep the qualifying calls among
`cs`, concatenate their argument lists in order, and take `argName`
of each argument. -/
def namesRhs (line : Nat) (cs : List Expr) : Option (List String) :=
  optMapM argName ((cs.filter (isMatch line)).flatMap callArgs)

/-- Sequential concatenation of two optional name lists; `none`
(a panic) on either side propagates. -/
def opApp (a b : Option (List γ)) : Option (List γ) :=
  a.bind (fun x => b.bind (fun y => some (x ++ y)))

theorem opApp_assoc (a b c : Option (List γ)) :
    opApp (opApp a b) c = opApp a (opApp b c) := by
  cases a <;> cases b <;> cases c <;> simp [opApp]

theorem bind3_eq (a b c : Option (List γ)) :
    a.bind (fun x => b.bind (fun y => c.bind (fun z => some (x ++ y ++ z)))) =
    opApp (opApp a b) c := by
  cases a <;> cases b <;> cases c <;> simp [opApp]

theorem optMapM_append (f : α → Option β) (l1 l2 : List α) :
    optMapM f (l1 ++ l2) = opApp (optMapM f l1) (optMapM f l2) := by
  induction l1 with
  | nil =>
      rw [List.nil_append]
      cases h : optMapM f l2 <;> simp [optMapM, opApp, h]
  | cons a l ih =>
      rw [List.cons_append]
      cases hfa : f a with
      | none => simp [optMapM, hfa, opApp]
      | some b =>
          simp only [optMapM, hfa, ih]
          cases h1 : optMapM f l <;> cases h2 : optMapM f l2 <;>
            simp [opApp, h1, h2]

theorem argNameList_eq : (t : ExprList) →
    argNameList t = optMapM argName t.toList
  | .enil => rfl
  | .econs a t => by
      have ih := argNameList_eq t
      simp [argNameList, optMapM, ExprList.toList, ih]

theorem namesRhs_append (line : Nat) (l1 l2 : List Expr) :
    namesRhs line (l1 ++ l2) = opApp (namesRhs line l1) (namesRhs line l2) := by
  unfold namesRhs
  rw [List.filter_append, List.flatMap_append, optMapM_append]

theorem namesRhs_call (line : Nat) (fn : Expr) (args : ExprList) (s e : Nat) :
    namesRhs line [.call fn args s e] =
      if e = line && qqCall (.call fn args s e) then argNameList args
      else some [] := by
  unfold namesRhs
  cases h : isMatch line (.call fn args s e) with
  | true =>
      have h2 : (decide (e = line) && qqCall (.call fn args s e)) = true := h
      simp [List.filter_cons, h, callArgs, ← argNameList_eq, h2]
  | false =>
      have h2 : (decide (e = line) && qqCall (.call fn args s e)) = false := h
      simp [List.filter_cons, h, h2, optMapM]

mutual
theorem inspectExpr_names_spec (line : Nat) :
    (e : Expr) → inspectExpr line e = namesRhs line (callNodes e)
  | .ident n o => by simp [inspectExpr, callNodes, namesRhs, optMapM]
  | .basicLit v => by simp [inspectExpr, callNodes, namesRhs, optMapM]
  | .binary x op y => by
      have hx := inspectExpr_names_spec line x
      have hy := inspectExpr_names_spec line y
      simp only [inspectExpr, callNodes, namesRhs_append, hx, hy, opApp]
  | .call fn args s e => by
      have hfn := inspectExpr_names_spec line fn
      have hargs := inspectList_names_spec line args
      have hcons : Expr.call fn args s e :: (callNodes fn ++ callNodesList args) =
          [Expr.call fn args s e] ++ (callNodes fn ++ callNodesList args) := rfl
      simp only [inspectExpr, callNodes, hcons, namesRhs_append, namesRhs_call,
        hfn, hargs, bind3_eq, opApp_assoc]
  | .indexE x i => by
      have hx := inspectExpr_names_spec line x
      have hi := inspectExpr_names_spec line i
      simp only [inspectExpr, callNodes, namesRhs_append, hx, hi, opApp]
  | .keyValue k v => by
      have hk := inspectExpr_names_spec line k
      have hv := inspectExpr_names_spec line v
      simp only [inspectExpr, callNodes, namesRhs_append, hk, hv, opApp]
  | .paren x => by
      have hx := inspectExpr_names_spec line x
      simp only [inspectExpr, callNodes, hx]
  | .sliceE x lo hi => by
      have hx := inspectExpr_names_spec line x
      have hlo := inspectOExpr_names_spec line lo
      have hhi := inspectOExpr_names_spec line hi
      simp only [inspectExpr, callNodes, namesRhs_append, hx, hlo, hhi,
        bind3_eq, opApp_assoc]
  | .typeAssert x t => by
      have hx := inspectExpr_names_spec line x
      have ht := inspectExpr_names_spec line t
      simp only [inspectExpr, callNodes, namesRhs_append, hx, ht, opApp]
  | .unary op x => by
      have hx := inspectExpr_names_spec line x
      simp only [inspectExpr, callNodes, hx]
  | .selector x s => by
      have hx := inspectExpr_names_spec line x
      simp only [inspectExpr, callNodes, hx]
theorem inspectOExpr_names_spec (line : Nat) :
    (e : OExpr) → inspectOExpr line e = namesRhs line (callNodesO e)
  | .onone => by simp [inspectOExpr, callNodesO, namesRhs, optMapM]
  | .osome e => by
      have he := inspectExpr_names_spec line e
      simp only [inspectOExpr, callNodesO, he]
theorem inspectList_names_spec (line : Nat) :
    (t : ExprList) → inspectList line t = namesRhs line (callNodesList t)
  | .enil => by simp [inspectList, callNodesList, namesRhs, optMapM]
  | .econs e t => by
      have he := inspectExpr_names_spec line e
      have ht := inspectList_names_spec line t
      simp only [inspectList, callNodesList, namesRhs_append, he, ht, opApp]
end

/-! ## The `Log` entry point

`Log` is modelled as a state transformer.  The ambient state is the
two package-level mutables the claims concern: the logger's current
line-prefix string and the grouping timer's expiry instant.  One
invocation is described by a `LogCall` record holding everything the
runtime supplies: the clock, `runtime.Caller`'s result, the outcome of
parsing the caller's file, the runtime values, and whether
`os.OpenFile` succeeds.  The invocation's observable effects are a
list of `Event`s; a Go panic appears as a final `panicEvent` and
nothing after it. -/

/-- Why an invocation panics: `nilDeref` is the nil `Obj` dereference
in `argName`, `indexOOB` the out-of-range `names[i]` access in
`formatArgs`, `openFail` the `panic(err)` in `openLog`. -/
inductive PanicReason where
  | nilDeref
  | indexOOB
  | openFail
deriving DecidableEq

/-- The flag set passed to `os.OpenFile` (`O_CREATE`, `O_APPEND`,
`O_WRONLY` as booleans). -/
structure OpenMode where
  create : Bool
  append : Bool
  writeOnly : Bool
deriving DecidableEq

/-- The mode `openLog` uses: `os.O_CREATE|os.O_APPEND|os.O_WRONLY`. -/
def qqOpenMode : OpenMode := ⟨true, true, true⟩

/-- The permission bits `openLog` passes: `0600`. -/
def logPerm : Nat := 0o600

/-- Observable events of one `Log` invocation, in order. -/
inductive Event where
  | openFile (mode : OpenMode) (perm : Nat)
  | writeLine (entries : List String) (pfx : String)
  | closeFile
  | panicEvent (r : PanicReason)
deriving DecidableEq

/-- The package-level mutable state `Log` touches: the logger's
prefix string and the absolute instant (nanoseconds) at which the
grouping timer fires. -/
structure QQState where
  pfx : String
  timerExpiry : Nat
deriving DecidableEq

/-- The state after package initialization: `log.New(os.Stderr, "", 0)`
gives an empty prefix, and `time.NewTimer(0)` at instant `t0` gives a
timer that fires at `t0`. -/
def initState (t0 : Nat) : QQState := ⟨"", t0⟩

/-- Everything the runtime supplies to one `Log` invocation. -/
structure LogCall where
  /-- The invocation instant, in nanoseconds. -/
  now : Nat
  /-- `time.Now().Format("15:04:05")` at the invocation instant. -/
  clock : String
  /-- Whether `runtime.Caller(1)` reports success. -/
  callerOk : Bool
  /-- The caller's file path reported by `runtime.Caller`. -/
  file : String
  /-- The caller's line number reported by `runtime.Caller`. -/
  line : Nat
  /-- `runtime.FuncForPC(pc).Name()` for the caller's pc. -/
  callerName : String
  /-- The parse of the caller's file: `none` when `parser.ParseFile`
  fails, otherwise the file's expressions in source order. -/
  parseTree : Option ExprList
  /-- The runtime values passed to `Log`. -/
  values : List GoValue
  /-- Whether `os.OpenFile` on the log file succeeds. -/
  openOk : Bool

/-- The grouping window: `2 * time.Second` in nanoseconds. -/
def groupWindow : Nat := 2 * 1000000000

/-- Embedding of Go `prefix`: `"[%s %s:%d %s] "`. -/
def callHeader (clock : String) (shortFile : String) (line : Nat)
    (caller : String) : String :=
  "[" ++ clock ++ " " ++ shortFile ++ ":" ++ toString line ++ " " ++
    caller ++ "] "

/-- Embedding of `filepath.Base`: the last non-empty slash-separated
component of the path (`"."` for an empty path, `"/"` when the path
consists only of slashes). -/
def filepathBase (path : String) : String :=
  if path = "" then "."
  else
    match ((path.splitOn "/").reverse).find? (fun s => s ≠ "") with
    | some s => s
    | none => "/"

/-- The first phase of `Log`, up to and including the
`logger.SetPrefix` call: obtain caller info, run `argNames` and
`formatArgs` when possible, and compute the entry list and the prefix
the logger is set to.  An `.error` result is a panic escaping this
phase; in that case no state has been mutated yet, because both panic
sites precede the `SetPrefix` call. -/
def namingPhase (st : QQState) (c : LogCall) :
    Except PanicReason (List String × String) :=
  if c.callerOk then
    match argNames c.parseTree c.line with
    | .error _ =>
        .ok (c.values.map GoValue.reprV,
             callHeader c.clock (filepathBase c.file) c.line c.callerName)
    | .ok none => .error .nilDeref
    | .ok (some names) =>
        match formatArgs names c.values with
        | none => .error .indexOOB
        | some fa =>
            .ok (fa, callHeader c.clock (filepathBase c.file) c.line c.callerName)
  else
    .ok (c.values.map GoValue.reprV, st.pfx)

/-- Embedding of Go `Log`: returns the state after the invocation and
the ordered observable events.  After the naming phase, the timer is
reset to fire `groupWindow` after `now` (`timer.Reset(2*time.Second)`);
when the timer was not running a newline is prepended to the prefix;
then the log file is opened, the line written, and the file closed —
or the process dies when the open fails. -/
def qqLog (st : QQState) (c : LogCall) : QQState × List Event :=
  match namingPhase st c with
  | .error r => (st, [.panicEvent r])
  | .ok (entries, p0) =>
      let wasRunning := c.now < st.timerExpiry
      let p1 := if wasRunning then p0 else "\n" ++ p0
      let st1 : QQState := ⟨p1, c.now + groupWindow⟩
      if c.openOk then
        (st1, [.openFile qqOpenMode logPerm, .writeLine entries p1, .closeFile])
      else
        (st1, [.panicEvent .openFail])

theorem qqLog_ok (st : QQState) (c : LogCall) (es : List String) (p0 : String)
    (h : namingPhase st c = .ok (es, p0)) :
    qqLog st c =
      (⟨if c.now < st.timerExpiry then p0 else "\n" ++ p0, c.now + groupWindow⟩,
       if c.openOk then
         [.openFile qqOpenMode logPerm,
          .writeLine es (if c.now < st.timerExpiry then p0 else "\n" ++ p0),
          .closeFile]
       else [.panicEvent .openFail]) := by
  unfold qqLog
  rw [h]
  by_cases hop : c.openOk = true
  · simp [hop]
  · simp [hop]

theorem qqLog_err (st : QQState) (c : LogCall) (r : PanicReason)
    (h : namingPhase st c = .error r) :
    qqLog st c = (st, [.panicEvent r]) := by
  unfold qqLog
  rw [h]

/-! ## Claims -/

/-- C3: for every list of name/value pairs given to the formatter, the
output list has exactly one entry per runtime value, in the same
order; an entry with a non-empty name is rendered as
`<colored-name>=<colored-value>` and an entry with an empty name as
just `<colored-value>` (that is exactly `fmtEntry`, zipped index-wise
over the pairs). -/
theorem C3_formatter_output (names : List String) (values : List GoValue)
    (h : names.length = values.length) :
    formatArgs names values = some (List.zipWith fmtEntry names values) ∧
    (List.zipWith fmtEntry names values).length = values.length := by
  refine ⟨formatArgs_of_le names values (le_of_eq h.symm), ?_⟩
  simp [List.length_zipWith, h]

theorem C3_formatter_output_witness :
    (["ip", ""] : List String).length =
      ([⟨"\"1.2.3.4\"", "\"1.2.3.4\""⟩, ⟨"5432", "5432"⟩] : List GoValue).length ∧
    (formatArgs ["ip", ""] [⟨"\"1.2.3.4\"", "\"1.2.3.4\""⟩, ⟨"5432", "5432"⟩] =
        some (List.zipWith fmtEntry ["ip", ""]
          [⟨"\"1.2.3.4\"", "\"1.2.3.4\""⟩, ⟨"5432", "5432"⟩]) ∧
      (List.zipWith fmtEntry ["ip", ""]
          [⟨"\"1.2.3.4\"", "\"1.2.3.4\""⟩, ⟨"5432", "5432"⟩]).length =
        ([⟨"\"1.2.3.4\"", "\"1.2.3.4\""⟩, ⟨"5432", "5432"⟩] : List GoValue).length) :=
  ⟨rfl, C3_formatter_output _ _ rfl⟩

/-- C10 (implicit): when more argument names are extracted than
runtime values are passed, `formatArgs` succeeds and returns exactly
one formatted entry per runtime value, pairing each value with the
name at the same index; the surplus names are silently ignored (the
zip is cut to the value count).  The guard is only in this direction —
see `C1_mismatch_behaviour` for the opposite one. -/
theorem C10_surplus_names (names : List String) (values : List GoValue)
    (h : values.length < names.length) :
    formatArgs names values = some (List.zipWith fmtEntry names values) ∧
    (List.zipWith fmtEntry names values).length = values.length := by
  refine ⟨formatArgs_of_le names values (le_of_lt h), ?_⟩
  simp [List.length_zipWith, Nat.min_eq_right (le_of_lt h)]

theorem C10_surplus_names_witness :
    ([⟨"443", "443"⟩] : List GoValue).length <
      (["port", "host", "x"] : List String).length ∧
    (formatArgs ["port", "host", "x"] [⟨"443", "443"⟩] =
        some (List.zipWith fmtEntry ["port", "host", "x"] [⟨"443", "443"⟩]) ∧
      (List.zipWith fmtEntry ["port", "host", "x"] [⟨"443", "443"⟩]).length =
        ([⟨"443", "443"⟩] : List GoValue).length) :=
  ⟨by decide, C10_surplus_names _ _ (by decide)⟩

/-- C1, refuted as stated: on a count mismatch the extracted names are
not discarded.  With fewer names than values the formatter's
`names[i]` access goes out of bounds (`none`, a Go panic), so the
values are not "every value formatted unnamed"; with more names than
values each value is paired with the same-index name, which is exactly
the partial naming the claim excludes. -/
theorem C1_counterexample :
    formatArgs ["a"] [⟨"1", "1"⟩, ⟨"2", "2"⟩] = none ∧
    formatArgs ["a"] [⟨"1", "1"⟩, ⟨"2", "2"⟩] ≠
      some [colorize "1" cyan, colorize "2" cyan] ∧
    formatArgs ["a", "b"] [⟨"1", "1"⟩] =
      some [colorize "a" bold ++ "=" ++ colorize "1" cyan] ∧
    formatArgs ["a", "b"] [⟨"1", "1"⟩] ≠ some [colorize "1" cyan] := by
  refine ⟨rfl, by decide, rfl, by decide⟩

/-- C1 amended: the count-mismatch handling is asymmetric.  When fewer
names than values are extracted, `formatArgs` hits an out-of-range
index and the call panics (no output at all); when more names than
values are extracted, no name is discarded: each value is paired with
the name at its index and only the surplus names are ignored. -/
theorem C1_mismatch_behaviour (names : List String) (values : List GoValue)
    (h : names.length ≠ values.length) :
    (names.length < values.length → formatArgs names values = none) ∧
    (values.length < names.length →
      formatArgs names values = some (List.zipWith fmtEntry names values)) :=
  ⟨fun hlt => formatArgs_of_lt names values hlt,
   fun hlt => formatArgs_of_le names values (le_of_lt hlt)⟩

theorem C1_mismatch_behaviour_witness :
    (["a"] : List String).length ≠ ([⟨"1", "1"⟩, ⟨"2", "2"⟩] : List GoValue).length ∧
    ((["a"] : List String).length < ([⟨"1", "1"⟩, ⟨"2", "2"⟩] : List GoValue).length →
      formatArgs ["a"] [⟨"1", "1"⟩, ⟨"2", "2"⟩] = none) ∧
    (([⟨"1", "1"⟩, ⟨"2", "2"⟩] : List GoValue).length < (["a"] : List String).length →
      formatArgs ["a"] [⟨"1", "1"⟩, ⟨"2", "2"⟩] =
        some (List.zipWith fmtEntry ["a"] [⟨"1", "1"⟩, ⟨"2", "2"⟩])) :=
  ⟨by decide, C1_mismatch_behaviour _ _ (by decide)⟩

theorem qqCall_lines_irrelevant (fn : Expr) (args : ExprList)
    (s e s2 e2 : Nat) :
    qqCall (.call fn args s e) = qqCall (.call fn args s2 e2) := by
  cases fn with
  | selector x sel => cases x <;> rfl
  | ident n o => rfl
  | basicLit v => rfl
  | binary a op b => rfl
  | call a b u v => rfl
  | indexE a b => rfl
  | keyValue a b => rfl
  | paren a => rfl
  | sliceE a b u => rfl
  | typeAssert a b => rfl
  | unary a b => rfl

/-- C4: the names `argNames` collects are exactly those obtained by
listing every call-expression node of the file in depth-first
pre-order (`callNodesList`), keeping the ones whose **ending** line is
the target line and which pass `qqCall` (`isMatch`), concatenating
their argument lists in that traversal order, and taking `argName` of
each argument.  The second conjunct spells out that the retention test
reads only the call's ending line (plus `qqCall`), and the third that
it is entirely independent of the starting line. -/
theorem C4_matcher_end_line (line : Nat) (file : ExprList) :
    inspectList line file = namesRhs line (callNodesList file) ∧
    (∀ fn args s e, isMatch line (.call fn args s e) =
        (e = line && qqCall (.call fn args s e))) ∧
    (∀ fn args s s2 e, isMatch line (.call fn args s e) =
        isMatch line (.call fn args s2 e)) :=
  ⟨inspectList_names_spec line file, fun _ _ _ _ => rfl,
   fun fn args s s2 e => by
     simp only [isMatch]
     rw [qqCall_lines_irrelevant fn args s e s2 e]⟩

/-- C5: a call expression passes the matcher's callee test exactly
when its `Fun` is a selector expression whose receiver is an
identifier spelled `qq` (the library's import alias); any call failing
that test is never retained, so it contributes no argument names. -/
theorem C5_qq_alias_filter :
    (∀ fn args s e, qqCall (.call fn args s e) = true ↔
        ∃ obj sel, fn = .selector (.ident "qq" obj) sel) ∧
    (∀ line fn args s e, qqCall (.call fn args s e) = false →
        isMatch line (.call fn args s e) = false) := by
  constructor
  · intro fn args s e
    constructor
    · intro h
      match fn, h with
      | .selector (.ident nm obj) sel, h =>
          have : nm = "qq" := by simpa [qqCall] using h
          exact ⟨obj, sel, by rw [this]⟩
    · rintro ⟨obj, sel, rfl⟩
      simp [qqCall]
  · intro line fn args s e h
    simp [isMatch, h]

theorem C5_qq_alias_filter_witness :
    qqCall (.call (.ident "f" none) .enil 5 5) = false ∧
    isMatch 5 (.call (.ident "f" none) .enil 5 5) = false :=
  ⟨rfl, C5_qq_alias_filter.2 5 (.ident "f" none) .enil 5 5 rfl⟩

/-- C6, refuted as stated: a boolean literal such as `true` is an
identifier the parser leaves unresolved (`Obj` is nil), and on it the
classifier dereferences the nil object and panics (`none`) instead of
returning the empty string the claim promises for literals. -/
theorem C6_counterexample :
    argName (.ident "true" none) = none ∧
    argName (.ident "true" none) ≠ some "" :=
  ⟨rfl, by decide⟩

/-- C6 amended: the classifier returns the resolved object's name for
an identifier whose object has variable kind; the pretty-printed
source text for binary, call, index, key-value, parenthesized, slice,
type-assertion and unary expressions; the empty string for basic
literals, selector expressions, and identifiers resolved to an object
of any non-variable kind (constant, package, type, function, label);
and it panics by dereferencing a nil object pointer on any identifier
the parser could not resolve — which includes the predeclared
identifiers `true`, `false` and `nil`, i.e. boolean and nil
literals. -/
theorem C6_classifier_cases :
    (∀ n, argName (.ident n none) = none) ∧
    (∀ n o, o.kind = ObjKind.varK → argName (.ident n (some o)) = some o.name) ∧
    (∀ n o, o.kind ≠ ObjKind.varK → argName (.ident n (some o)) = some "") ∧
    (∀ x op y, argName (.binary x op y) = some (exprToString (.binary x op y))) ∧
    (∀ fn args s e, argName (.call fn args s e) =
        some (exprToString (.call fn args s e))) ∧
    (∀ x i, argName (.indexE x i) = some (exprToString (.indexE x i))) ∧
    (∀ k v, argName (.keyValue k v) = some (exprToString (.keyValue k v))) ∧
    (∀ x, argName (.paren x) = some (exprToString (.paren x))) ∧
    (∀ x lo hi, argName (.sliceE x lo hi) =
        some (exprToString (.sliceE x lo hi))) ∧
    (∀ x t, argName (.typeAssert x t) = some (exprToString (.typeAssert x t))) ∧
    (∀ op x, argName (.unary op x) = some (exprToString (.unary op x))) ∧
    (∀ v, argName (.basicLit v) = some "") ∧
    (∀ x s, argName (.selector x s) = some "") := by
  refine ⟨fun n => rfl, fun n o ho => ?_, fun n o ho => ?_,
    fun _ _ _ => rfl, fun _ _ _ _ => rfl, fun _ _ => rfl, fun _ _ => rfl,
    fun _ => rfl, fun _ _ _ => rfl, fun _ _ => rfl, fun _ _ => rfl,
    fun _ => rfl, fun _ _ => rfl⟩
  · simp [argName, ho]
  · simp [argName, ho]

theorem C6_classifier_cases_witness :
    (ObjKind.varK = ObjKind.varK ∧
      argName (.ident "port" (some ⟨ObjKind.varK, "port"⟩)) = some "port") ∧
    (ObjKind.con ≠ ObjKind.varK ∧
      argName (.ident "maxConns" (some ⟨ObjKind.con, "maxConns"⟩)) = some "") :=
  ⟨⟨rfl, C6_classifier_cases.2.1 "port" ⟨ObjKind.varK, "port"⟩ rfl⟩,
   ⟨by decide, C6_classifier_cases.2.2.1 "maxConns" ⟨ObjKind.con, "maxConns"⟩ (by decide)⟩⟩

/-- C2, evaluated on a failing input: the caller's file parses and
contains a `qq.Log(x)` call ending on line 7, but the reported line is
42, so no call matches and `argNames` hands back an empty name list
with a nil error.  `Log` then calls `formatArgs` with zero names and
one value, which indexes out of range: the invocation panics and no
log line is written, instead of falling back to unnamed formatting. -/
theorem C2_no_match_panics :
    qqLog (initState 0)
      { now := 5, clock := "12:00:00", callerOk := true, file := "/tmp/m.go",
        line := 42, callerName := "main.main",
        parseTree := some (.econs
          (.call (.selector (.ident "qq" none) "Log")
            (.econs (.ident "x" (some ⟨ObjKind.varK, "x"⟩)) .enil) 7 7)
          .enil),
        values := [⟨"1", "1"⟩], openOk := true } =
      (initState 0, [.panicEvent .indexOOB]) := rfl

/-- C7: when parsing the caller's source file fails, the error is
swallowed, formatting is skipped, and the invocation still runs to
completion, appending one log line whose entries are exactly the
runtime values in order with no name attached to any of them. -/
theorem C7_parse_failure_degrades (st : QQState) (c : LogCall)
    (hok : c.callerOk = true) (hparse : c.parseTree = none)
    (hopen : c.openOk = true) :
    ∃ p : String,
      qqLog st c =
        (⟨p, c.now + groupWindow⟩,
         [.openFile qqOpenMode logPerm,
          .writeLine (c.values.map GoValue.reprV) p,
          .closeFile]) := by
  have hn : namingPhase st c =
      .ok (c.values.map GoValue.reprV,
           callHeader c.clock (filepathBase c.file) c.line c.callerName) := by
    simp [namingPhase, hok, hparse, argNames]
  refine ⟨if c.now < st.timerExpiry
      then callHeader c.clock (filepathBase c.file) c.line c.callerName
      else "\n" ++ callHeader c.clock (filepathBase c.file) c.line c.callerName,
    ?_⟩
  rw [qqLog_ok st c _ _ hn]
  simp [hopen]

/-- A concrete invocation whose source file does not parse. -/
def parseFailCall : LogCall :=
  { now := 9, clock := "08:15:00", callerOk := true, file := "/tmp/bad.go",
    line := 3, callerName := "main.main", parseTree := none,
    values := [⟨"1", "1"⟩, ⟨"2", "2"⟩], openOk := true }

theorem C7_parse_failure_degrades_witness :
    parseFailCall.callerOk = true ∧ parseFailCall.parseTree = none ∧
    parseFailCall.openOk = true ∧
    ∃ p : String,
      qqLog (initState 0) parseFailCall =
        (⟨p, parseFailCall.now + groupWindow⟩,
         [.openFile qqOpenMode logPerm,
          .writeLine (parseFailCall.values.map GoValue.reprV) p,
          .closeFile]) :=
  ⟨rfl, rfl, rfl, C7_parse_failure_degrades (initState 0) parseFailCall rfl rfl rfl⟩

/-- C8: every invocation that reaches the timer (i.e. whose naming
phase does not panic) resets it to fire `groupWindow` (2 s) after the
invocation instant; the emitted entry's prefix carries a leading
newline exactly when the timer had already expired — equivalently,
for consecutive invocations, exactly when at least `groupWindow`
elapsed since the previous one — and the first invocation after
package initialization always gets the newline. -/
theorem C8_grouping_timer (st : QQState) (c : LogCall) (es : List String)
    (p0 : String) (h : namingPhase st c = .ok (es, p0)) :
    ((qqLog st c).1.timerExpiry = c.now + groupWindow) ∧
    ((qqLog st c).1.pfx = if st.timerExpiry ≤ c.now then "\n" ++ p0 else p0) ∧
    (c.openOk = true →
      (qqLog st c).2 =
        [.openFile qqOpenMode logPerm,
         .writeLine es (if st.timerExpiry ≤ c.now then "\n" ++ p0 else p0),
         .closeFile]) ∧
    (∀ t0, st = initState t0 → t0 ≤ c.now →
      (qqLog st c).1.pfx = "\n" ++ p0) ∧
    (∀ (c2 : LogCall) (es2 : List String) (p2 : String),
      namingPhase (qqLog st c).1 c2 = .ok (es2, p2) → c.now ≤ c2.now →
      ((qqLog (qqLog st c).1 c2).1.pfx = "\n" ++ p2 ↔
        groupWindow ≤ c2.now - c.now)) := by
  have hq := qqLog_ok st c es p0 h
  have hite : (if c.now < st.timerExpiry then p0 else "\n" ++ p0) =
      (if st.timerExpiry ≤ c.now then "\n" ++ p0 else p0) := by
    by_cases hlt : c.now < st.timerExpiry
    · rw [if_pos hlt, if_neg (by omega)]
    · rw [if_neg hlt, if_pos (by omega)]
  have hne : ∀ p : String, p ≠ "\n" ++ p := by
    intro p heq
    have := congrArg String.length heq
    simp [String.length_append] at this
    exact absurd this (by decide)
  refine ⟨?_, ?_, ?_, ?_, ?_⟩
  · rw [hq]
  · rw [hq]
    exact hite
  · intro hop
    rw [hq]
    simp only [hop, if_true]
    rw [hite]
  · intro t0 hst hle
    subst hst
    rw [hq]
    show (if c.now < (initState t0).timerExpiry then p0 else "\n" ++ p0) =
      "\n" ++ p0
    rw [if_neg (by simp [initState]; omega)]
  · intro c2 es2 p2 h2 hle
    have hq2 := qqLog_ok _ c2 es2 p2 h2
    rw [hq2]
    show (if c2.now < (qqLog st c).1.timerExpiry then p2 else "\n" ++ p2) =
        "\n" ++ p2 ↔ groupWindow ≤ c2.now - c.now
    rw [hq]
    show (if c2.now < c.now + groupWindow then p2 else "\n" ++ p2) =
        "\n" ++ p2 ↔ groupWindow ≤ c2.now - c.now
    by_cases hcond : c2.now < c.now + groupWindow
    · rw [if_pos hcond]
      exact iff_of_false (fun heq => hne p2 heq) (by omega)
    · rw [if_neg hcond]
      exact iff_of_true rfl (by omega)

/-- A concrete invocation whose caller lookup fails, so the naming
phase trivially succeeds with raw values and the previous prefix. -/
def quietCall : LogCall :=
  { now := 10, clock := "", callerOk := false, file := "", line := 0,
    callerName := "", parseTree := none, values := [], openOk := true }

theorem C8_grouping_timer_witness :
    namingPhase (initState 0) quietCall = .ok ([], "") ∧
    (((qqLog (initState 0) quietCall).1.timerExpiry =
        quietCall.now + groupWindow) ∧
     ((qqLog (initState 0) quietCall).1.pfx =
        if (initState 0).timerExpiry ≤ quietCall.now then "\n" ++ "" else "") ∧
     (quietCall.openOk = true →
       (qqLog (initState 0) quietCall).2 =
         [.openFile qqOpenMode logPerm,
          .writeLine []
            (if (initState 0).timerExpiry ≤ quietCall.now
             then "\n" ++ "" else ""),
          .closeFile]) ∧
     (∀ t0, initState 0 = initState t0 → t0 ≤ quietCall.now →
       (qqLog (initState 0) quietCall).1.pfx = "\n" ++ "") ∧
     (∀ (c2 : LogCall) (es2 : List String) (p2 : String),
       namingPhase (qqLog (initState 0) quietCall).1 c2 = .ok (es2, p2) →
       quietCall.now ≤ c2.now →
       ((qqLog (qqLog (initState 0) quietCall).1 c2).1.pfx = "\n" ++ p2 ↔
         groupWindow ≤ c2.now - quietCall.now))) :=
  ⟨rfl, C8_grouping_timer (initState 0) quietCall [] "" rfl⟩

/-- C9, refuted as stated: an invocation on which `os.OpenFile` would
succeed still aborts the process — here `qq.Log(true)` makes the
classifier dereference the nil object of the unresolved identifier
`true` — so log-file open failure is not the only unrecoverable
condition in the core. -/
theorem C9_counterexample :
    qqLog (initState 0)
      { now := 3, clock := "00:00:01", callerOk := true, file := "f.go",
        line := 9, callerName := "main.f",
        parseTree := some (.econs
          (.call (.selector (.ident "qq" none) "Log")
            (.econs (.ident "true" none) .enil) 9 9) .enil),
        values := [⟨"true", "true"⟩], openOk := true } =
      (initState 0, [.panicEvent .nilDeref]) ∧
    PanicReason.nilDeref ≠ PanicReason.openFail :=
  ⟨rfl, by decide⟩

/-- C9 amended: on every invocation that reaches the sink, the log
file is opened with `O_CREATE|O_APPEND|O_WRONLY` and permission bits
`0600`, immediately before the single write and closed immediately
after it (the open, write and close are adjacent and nothing else is
emitted); failure to open is fatal and aborts the process; but it is
not the only unrecoverable condition in the core — the classifier's
nil-object dereference (and the formatter's out-of-range index) also
abort the process. -/
theorem C9_open_behaviour (st : QQState) (c : LogCall) (es : List String)
    (p0 : String) (h : namingPhase st c = .ok (es, p0)) :
    (c.openOk = true →
      ∃ p, (qqLog st c).2 =
        [.openFile ⟨true, true, true⟩ 0o600, .writeLine es p, .closeFile]) ∧
    (c.openOk = false → (qqLog st c).2 = [.panicEvent .openFail]) ∧
    (∃ (st2 : QQState) (c2 : LogCall), c2.openOk = true ∧
      (qqLog st2 c2).2 = [.panicEvent .nilDeref]) := by
  have hq := qqLog_ok st c es p0 h
  refine ⟨fun hop =>
      ⟨if c.now < st.timerExpiry then p0 else "\n" ++ p0, ?_⟩,
    fun hop => ?_, ?_⟩
  · rw [hq]
    simp only [hop, if_true]
    rfl
  · rw [hq]
    simp [hop]
  · refine ⟨initState 0,
      { now := 0, clock := "", callerOk := true, file := "", line := 1,
        callerName := "",
        parseTree := some (.econs
          (.call (.selector (.ident "qq" none) "Log")
            (.econs (.ident "nil" none) .enil) 1 1) .enil),
        values := [], openOk := true }, rfl, rfl⟩

theorem C9_open_behaviour_witness :
    namingPhase (initState 0) quietCall = .ok ([], "") ∧
    ((quietCall.openOk = true →
       ∃ p, (qqLog (initState 0) quietCall).2 =
         [.openFile ⟨true, true, true⟩ 0o600, .writeLine [] p, .closeFile]) ∧
     (quietCall.openOk = false →
       (qqLog (initState 0) quietCall).2 = [.panicEvent .openFail]) ∧
     (∃ (st2 : QQState) (c2 : LogCall), c2.openOk = true ∧
       (qqLog st2 c2).2 = [.panicEvent .nilDeref])) :=
  ⟨rfl, C9_open_behaviour (initState 0) quietCall [] "" rfl⟩

end QQ
